import Mathlib

/-!
Shallow embedding of the coherence-modeling code in the DarijaGenie repository
(notebooks LCD_in_final and HT_in_final).  Torch tensors are modeled as lists of
rationals, the pseudo-random generator is modeled as explicit oracle arguments,
and fallible or potentially diverging loops are modeled with Option and fuel.
-/

/-- A dialogue turn: a (speaker, utterance) pair, as produced by the corpus loaders. -/
abbrev Turn := String × String

/-- A dialogue: an ordered list of (speaker, utterance) turns. -/
abbrev Dialogue := List Turn

/-- Feature builder from LCD_in_final, cell 883cddc7: the concatenation
[s, t, s - t, |s - t|, s * t] with the three derived vectors taken elementwise. -/
def build_pairwise_features (s t : List ℚ) : List ℚ :=
  s ++ t ++ List.zipWith (fun a b => a - b) s t
    ++ List.zipWith (fun a b => |a - b|) s t
    ++ List.zipWith (fun a b => a * b) s t

/-- Bounded margin ranking loss from LCD_in_final, cell YfBIottqmZ3F, with every
hyperparameter passed explicitly (torch.clamp with min 0 is the max with 0). -/
def bounded_margin_loss (score_pos score_neg margin upper_bound lower_bound
    lambda_upper lambda_lower : ℚ) : ℚ :=
  max 0 (margin - (score_pos - score_neg))
    + lambda_upper * max 0 (score_pos - upper_bound)
    + lambda_lower * max 0 (lower_bound - score_pos)

/-- The bounded margin loss at the default hyperparameters of the source
(margin 10, upper bound 10, lower bound 0, both penalty weights 1). -/
def bounded_margin_loss_default (score_pos score_neg : ℚ) : ℚ :=
  bounded_margin_loss score_pos score_neg 10 10 0 1 1

/-- Sum of a batch of token vectors, all of width hdim (torch sum over the
sequence dimension, starting from the zero vector). -/
def vecSum (hdim : ℕ) (ts : List (List ℚ)) : List ℚ :=
  ts.foldl (fun acc v => List.zipWith (fun a b => a + b) acc v) (List.replicate hdim 0)

/-- Mean pooling from SentenceEncoder.forward in LCD_in_final, cell 387b097a:
multiply each token vector by its attention-mask entry, sum over the sequence
dimension, and divide by the mask total clamped to a minimum of 1.  The hidden
size hdim is carried explicitly (in torch it is part of the tensor shape). -/
def meanPool (hdim : ℕ) (tokens : List (List ℚ)) (mask : List ℚ) : List ℚ :=
  let masked := List.zipWith (fun tok m => tok.map (fun x => x * m)) tokens mask
  let summed := masked.foldl (fun acc v => List.zipWith (fun a b => a + b) acc v)
    (List.replicate hdim 0)
  let counts := max (mask.foldl (fun a b => a + b) 0) 1
  summed.map (fun x => x / counts)

/-- Averaged forward/backward score of an ordered pair of embeddings, as computed
in compute_dialogue_pred and in the LCD training loop: score each direction on its
own feature vector and take the arithmetic mean.  The two scorer networks are
abstracted as functions from feature vectors to scores. -/
def avgScore (scorer_fwd scorer_bwd : List ℚ → ℚ) (s t : List ℚ) : ℚ :=
  (scorer_fwd (build_pairwise_features s t) + scorer_bwd (build_pairwise_features t s)) / 2

/-- The adjacent-pair scan of compute_dialogue_pred (LCD_in_final, cell
bIvWH7estsqo): walk the embedding list, return 0 at the first adjacent pair whose
averaged score is negative, return 1 when no pair is negative. -/
def predLoop (scorer_fwd scorer_bwd : List ℚ → ℚ) : List (List ℚ) → ℕ
  | e₁ :: e₂ :: rest =>
      if avgScore scorer_fwd scorer_bwd e₁ e₂ < 0 then 0
      else predLoop scorer_fwd scorer_bwd (e₂ :: rest)
  | _ => 1

/-- compute_dialogue_pred from LCD_in_final: encode every utterance once, then
scan adjacent pairs; no negative sampling oracle is consumed at inference. -/
def compute_dialogue_pred (d : Dialogue) (enc : String → List ℚ)
    (scorer_fwd scorer_bwd : List ℚ → ℚ) : ℕ :=
  predLoop scorer_fwd scorer_bwd (d.map (fun t => enc t.2))

/-- Negative-candidate set for adjacent position i in the LCD training loop:
all indices j with j distinct from i+1 whose speaker differs from speaker i. -/
def candidates (speakers : List String) (i : ℕ) : List ℕ :=
  (List.range speakers.length).filter
    (fun j => j ≠ i + 1 ∧ speakers.getD j "" ≠ speakers.getD i "")

/-- One iteration of the pair loop in train_one_epoch (LCD_in_final, cell
64b830b8): at position i, if the candidate set is empty the position is skipped,
otherwise the oracle pick chooses the negative index and the averaged positive
and negative scores are computed. -/
def trainPairAt (d : Dialogue) (enc : String → List ℚ)
    (scorer_fwd scorer_bwd : List ℚ → ℚ) (pick : ℕ → List ℕ → ℕ) (i : ℕ) :
    Option (ℚ × ℚ) :=
  let speakers := d.map Prod.fst
  let embs := d.map (fun t => enc t.2)
  let cands := candidates speakers i
  if cands = [] then none
  else
    some (avgScore scorer_fwd scorer_bwd (embs.getD i []) (embs.getD (i + 1) []),
          avgScore scorer_fwd scorer_bwd (embs.getD i []) (embs.getD (pick i cands) []))

/-- The list of (score_pos, score_neg) pairs actually computed for a dialogue
during one training pass, in position order (skipped positions contribute
nothing). -/
def trainDialoguePairs (d : Dialogue) (enc : String → List ℚ)
    (scorer_fwd scorer_bwd : List ℚ → ℚ) (pick : ℕ → List ℕ → ℕ) : List (ℚ × ℚ) :=
  (List.range (d.length - 1)).filterMap (trainPairAt d enc scorer_fwd scorer_bwd pick)

/-- Overwrite-on-success update of a python variable: a computed value replaces
the accumulator, a skipped iteration leaves it alone. -/
def keepLatest {β : Type} (acc o : Option β) : Option β :=
  match o with
  | some v => some v
  | none => acc

/-- The (score_pos, score_neg) python variables as left behind by the pair loop:
each computed position overwrites them, skipped positions leave them unchanged,
and none means no pair was ever computed. -/
def trainLastPair (d : Dialogue) (enc : String → List ℚ)
    (scorer_fwd scorer_bwd : List ℚ → ℚ) (pick : ℕ → List ℕ → ℕ) : Option (ℚ × ℚ) :=
  (List.range (d.length - 1)).foldl
    (fun acc i => keepLatest acc (trainPairAt d enc scorer_fwd scorer_bwd pick i))
    none

/-- The per-dialogue correctness flag of train_one_epoch: the counter increments
only when pair_count is positive and the leftover score_pos exceeds the leftover
score_neg. -/
def dialogueCorrect (d : Dialogue) (enc : String → List ℚ)
    (scorer_fwd scorer_bwd : List ℚ → ℚ) (pick : ℕ → List ℕ → ℕ) : Bool :=
  match trainLastPair d enc scorer_fwd scorer_bwd pick with
  | some pq => decide (pq.2 < pq.1)
  | none => false

/-- Random oracle consumed by permute_dialogue: for each requested permutation
iteration, the sampled subset of the target speaker slot positions (covering both
the randint draw of k and the random.sample draw), and for each retry of the
shuffle loop, the list produced by random.shuffle. -/
structure PermOracle where
  samplePick : ℕ → List ℕ
  shuffleAtt : ℕ → ℕ → List String

/-- Positions of the turns of a given speaker inside a dialogue. -/
def speakerIndices (d : Dialogue) (spk : String) : List ℕ :=
  (List.range d.length).filter (fun i => (d.getD i ("", "")).1 = spk)

/-- Utterance texts of a given speaker, in dialogue order. -/
def speakerUtterances (d : Dialogue) (spk : String) : List String :=
  (d.filter (fun t => t.1 = spk)).map Prod.snd

/-- The while-True shuffle loop of permute_dialogue (LCD_in_final, cell
MFAR-Re9AIt8): keep drawing shuffles until one differs from the original list.
The source loop has no retry counter, so the embedding carries fuel; none means
the loop has not exited within the given number of attempts (the source would
still be running). -/
def shuffleLoopAux (att : ℕ → List String) (orig : List String) :
    ℕ → ℕ → Option (List String)
  | _, 0 => none
  | j, fuel + 1 =>
      if att j ≠ orig then some (att j) else shuffleLoopAux att orig (j + 1) fuel

/-- The shuffle loop started at attempt 0. -/
def shuffleLoop (att : ℕ → List String) (orig : List String) (fuel : ℕ) :
    Option (List String) :=
  shuffleLoopAux att orig 0 fuel

/-- In-place positional assignments base[p] := v, performed left to right, as in
the write-back loops of both notebooks (out-of-range writes cannot occur in the
source because sampled positions index the list being written). -/
def substAt (base : List String) (assignments : List (ℕ × String)) : List String :=
  assignments.foldl (fun acc p => acc.set p.1 p.2) base

/-- The reconstruction loop at the end of permute_dialogue: walk the dialogue,
replacing the j-th turn of the target speaker by the j-th entry of the new
utterance list and keeping every other turn untouched. -/
def reconstructDialogue (spk : String) : Dialogue → List String → Dialogue
  | [], _ => []
  | (s, u) :: rest, news =>
      if s = spk then (s, news.headI) :: reconstructDialogue spk rest news.tail
      else (s, u) :: reconstructDialogue spk rest news

/-- One iteration of the outer loop of permute_dialogue: when the target speaker
has fewer than 2 turns the original dialogue itself is appended; otherwise the
sampled positions of that speaker are shuffled until different (none when the
unbounded source loop has not exited within the fuel) and the dialogue is
rebuilt. -/
def permuteOnce (d : Dialogue) (speaker_to_permute : String) (o : PermOracle)
    (it fuel : ℕ) : Option Dialogue :=
  let idxs := speakerIndices d speaker_to_permute
  let utts := speakerUtterances d speaker_to_permute
  if idxs.length < 2 then some d
  else
    let sub := o.samplePick it
    let to_shuffle := sub.map (fun i => utts.getD i "")
    match shuffleLoop (o.shuffleAtt it) to_shuffle fuel with
    | none => none
    | some shuffled =>
        some (reconstructDialogue speaker_to_permute d (substAt utts (sub.zip shuffled)))

/-- permute_dialogue from LCD_in_final: build num_permutations permuted variants
of the dialogue; the overall result is none when some iteration never exits its
shuffle loop within the fuel. -/
def permute_dialogue (d : Dialogue) (speaker_to_permute : String) (o : PermOracle)
    (fuel num_permutations : ℕ) : Option (List Dialogue) :=
  (List.range num_permutations).mapM (fun it => permuteOnce d speaker_to_permute o it fuel)

/-- The hard-coded speaker draw of test_experiment (LCD_in_final, cell 4cbfd782):
random.choice over the constant list of the two labels A and B, independent of
the speaker labels in the dialogue. -/
def speakerChoice (coin : Bool) : String :=
  if coin then "A" else "B"

/-- The labeled examples that one dialogue contributes in test_experiment:
dialogues shorter than 3 turns contribute nothing; otherwise the original is
recorded with true label 1 and every permuted variant with true label 0. -/
def testExamples (d : Dialogue) (coin : Bool) (o : PermOracle) (fuel n : ℕ) :
    Option (List (ℕ × Dialogue)) :=
  if d.length < 3 then some []
  else
    match permute_dialogue d (speakerChoice coin) o fuel n with
    | none => none
    | some perms => some ((1, d) :: perms.map (fun p => (0, p)))

/-- Random oracle consumed by the DialogueCoherenceDataset constructor in
HT_in_final, cell tew7dXUhDP8_: the random.choice of the target speaker (as an
index into the valid-speaker list), and per attempt the sampled positions
(covering the randint draw of num_to_shuffle together with random.sample) and the
random.shuffle outcome on the extracted sublist. -/
structure HTOracle where
  targetPick : List String → ℕ
  samplePick : ℕ → List ℕ
  shuffleFn : ℕ → List String → List String

/-- One attempt of the negative-search loop of the dataset constructor: copy the
utterance list, extract the sampled positions, shuffle the extract, and write it
back at the same positions. -/
def htAttempt (o : HTOracle) (utts : List String) (attempt : ℕ) : List String :=
  let selected := o.samplePick attempt
  let utts_to_shuffle := selected.map (fun i => utts.getD i "")
  let shuffled := o.shuffleFn attempt utts_to_shuffle
  substAt utts (selected.zip shuffled)

/-- The bounded while loop of the dataset constructor, counting attempts upward
while the remaining allowance counts down: stop at the first attempt whose
result differs from the original utterance list, give up when the allowance is
exhausted. -/
def htSearchAux (o : HTOracle) (utts : List String) : ℕ → ℕ → Option (List String)
  | _, 0 => none
  | attempt, rem + 1 =>
      let s := htAttempt o utts attempt
      if s ≠ utts then some s else htSearchAux o utts (attempt + 1) rem

/-- The max_attempts constant of the dataset constructor. -/
def max_attempts : ℕ := 20

/-- The negative-search loop started at attempt 0 with the allowance of
max_attempts. -/
def htSearch (o : HTOracle) (utts : List String) : Option (List String) :=
  htSearchAux o utts 0 max_attempts

/-- The per-dialogue negative-synthesis block of the dataset constructor: skip
dialogues with fewer than 2 distinct speakers, restrict to speakers with more
than one turn, pick one, search for a differing shuffle of its utterances
(bounded by max_attempts), rebuild the dialogue, and emit it only when the
rebuilt dialogue differs from the original. -/
def htMakeNegative (d : Dialogue) (o : HTOracle) : Option Dialogue :=
  let speakers := (d.map Prod.fst).dedup
  if speakers.length < 2 then none
  else
    let valid_speakers := speakers.filter (fun s => 1 < (d.filter (fun t => t.1 = s)).length)
    if valid_speakers = [] then none
    else
      let target_spk := valid_speakers.getD (o.targetPick valid_speakers) ""
      let indices := speakerIndices d target_spk
      let utts := speakerUtterances d target_spk
      match htSearch o utts with
      | none => none
      | some shuffled_utts =>
          let neg_dialogue := (indices.zip shuffled_utts).foldl
            (fun acc p => acc.set p.1 (target_spk, p.2)) d
          if neg_dialogue ≠ d then some neg_dialogue else none

/-- A corpus line as seen after JSON decoding: none stands for a line whose
json.loads raised, some gives the dialogue field as a list of turn dicts, each
dict listed as its (speaker, utterance) items. -/
abbrev RawLine := Option (List (List Turn))

/-- One step of the dataset-constructor corpus loop (HT_in_final): a malformed
line adds a warning and is skipped; a parsed line is flattened into turns, kept
only when it has at least 2 turns, and truncated to max_utterances. -/
def htLoadStep (max_utterances : ℕ) (acc : List Dialogue × ℕ) (line : RawLine) :
    List Dialogue × ℕ :=
  match line with
  | none => (acc.1, acc.2 + 1)
  | some turns =>
      let dialogue := turns.flatten
      if 2 ≤ dialogue.length then (acc.1 ++ [dialogue.take max_utterances], acc.2)
      else acc

/-- The corpus loop of the dataset constructor: accumulate the kept dialogues and
the count of parse warnings over all lines. -/
def htLoad (lines : List RawLine) (max_utterances : ℕ) : List Dialogue × ℕ :=
  lines.foldl (htLoadStep max_utterances) ([], 0)

/-- The labeled entries of the dataset: for every loaded dialogue the original
with label 1, followed by its synthetic negative with label 0 when one is found. -/
def buildEntries (all_dialogues : List Dialogue) (oracles : ℕ → HTOracle) :
    List (Dialogue × ℕ) :=
  all_dialogues.enum.flatMap (fun p =>
    (p.2, 1) :: (match htMakeNegative p.2 (oracles p.1) with
      | some nd => [(nd, 0)]
      | none => []))

/-- The dialogue/label store of a constructed DialogueCoherenceDataset. -/
structure Dataset where
  entries : List (Dialogue × ℕ)

/-- DialogueCoherenceDataset construction: load the corpus, raise ValueError when
no valid dialogue was found, otherwise build the labeled entries. -/
def DialogueCoherenceDataset_init (lines : List RawLine) (max_utterances : ℕ)
    (oracles : ℕ → HTOracle) : Except String Dataset :=
  let loaded := htLoad lines max_utterances
  if loaded.1 = [] then
    Except.error "No valid dialogues found in the provided folder."
  else
    Except.ok ⟨buildEntries loaded.1 oracles⟩

/-- One step of load_dialogues_with_speakers (LCD_in_final, cell 41929050): same
as the dataset-constructor loop but with no truncation; malformed lines print a
warning and are skipped, and an empty result is returned as an empty list rather
than an error. -/
def lcdLoadStep (acc : List Dialogue × ℕ) (line : RawLine) : List Dialogue × ℕ :=
  match line with
  | none => (acc.1, acc.2 + 1)
  | some turns =>
      let dialogue := turns.flatten
      if 2 ≤ dialogue.length then (acc.1 ++ [dialogue], acc.2) else acc

/-- load_dialogues_with_speakers: the kept dialogues plus the warning count. -/
def load_dialogues_with_speakers (lines : List RawLine) : List Dialogue × ℕ :=
  lines.foldl lcdLoadStep ([], 0)

/-- The positive-class weight computation of HT_in_final, cell 8: the label sum
counts the positives and the complement counts the negatives; the weight is the
negative count over the positive count. -/
def posWeight (labels : List ℕ) : ℚ :=
  let n_positive : ℚ := (labels.sum : ℚ)
  let n_negative : ℚ := (labels.length : ℚ) - n_positive
  n_negative / n_positive

/-- The four weights materialized by the criterion-setup cell: the training
weight, the weight actually handed to the training criterion, the
validation-split weight that is computed, and the weight actually handed to the
validation criterion. -/
structure CriterionSetup where
  pos_weight : ℚ
  train_criterion_weight : ℚ
  val_pos_weight : ℚ
  val_criterion_weight : ℚ

/-- The criterion-setup cell of HT_in_final: both BCEWithLogitsLoss instances are
built with pos_weight, the weight of the training split; val_pos_weight is
computed from the validation split but never used. -/
def setupCriteria (train_labels val_labels : List ℕ) : CriterionSetup :=
  let pos_weight := posWeight train_labels
  let val_pos_weight := posWeight val_labels
  { pos_weight := pos_weight,
    train_criterion_weight := pos_weight,
    val_pos_weight := val_pos_weight,
    val_criterion_weight := pos_weight }

/-- C3: at the default hyperparameters (margin 10, bounds 0 and 10, penalty
weights 1) the bounded margin loss equals the specified three-term formula, it
vanishes exactly when the positive score beats the negative score by the margin
while staying inside the bounds, it is strictly positive whenever one of the
three conditions fails, and it is monotone (strictly so in the margin and
lower-bound directions) as any condition is violated further. -/
theorem bounded_margin_loss_spec (sp sn : ℚ) :
    bounded_margin_loss_default sp sn
        = max 0 (10 - (sp - sn)) + 1 * max 0 (sp - 10) + 1 * max 0 (0 - sp)
      ∧ (bounded_margin_loss_default sp sn = 0 ↔ 10 ≤ sp - sn ∧ 0 ≤ sp ∧ sp ≤ 10)
      ∧ (¬(10 ≤ sp - sn ∧ 0 ≤ sp ∧ sp ≤ 10) → 0 < bounded_margin_loss_default sp sn)
      ∧ (∀ sn', sn ≤ sn' →
          bounded_margin_loss_default sp sn ≤ bounded_margin_loss_default sp sn')
      ∧ (∀ sn', sp - sn < 10 → sn < sn' →
          bounded_margin_loss_default sp sn < bounded_margin_loss_default sp sn')
      ∧ (∀ sp', 10 ≤ sp → sp ≤ sp' →
          bounded_margin_loss_default sp sn ≤ bounded_margin_loss_default sp' sn)
      ∧ (∀ sp', sp ≤ 0 → sp' ≤ sp →
          bounded_margin_loss_default sp sn ≤ bounded_margin_loss_default sp' sn)
      ∧ (∀ sp', sp < 0 → sp' < sp →
          bounded_margin_loss_default sp sn < bounded_margin_loss_default sp' sn) := by
  simp only [bounded_margin_loss_default, bounded_margin_loss, one_mul]
  refine ⟨trivial, ?_, ?_, ?_, ?_, ?_, ?_, ?_⟩
  · constructor
    · intro h
      rcases max_cases (0 : ℚ) (10 - (sp - sn)) with ⟨e1, l1⟩ | ⟨e1, l1⟩ <;>
        rcases max_cases (0 : ℚ) (sp - 10) with ⟨e2, l2⟩ | ⟨e2, l2⟩ <;>
          rcases max_cases (0 : ℚ) (0 - sp) with ⟨e3, l3⟩ | ⟨e3, l3⟩ <;>
            rw [e1, e2, e3] at h <;>
              exact ⟨by linarith, by linarith, by linarith⟩
    · rintro ⟨h1, h2, h3⟩
      have e1 : max (0 : ℚ) (10 - (sp - sn)) = 0 := max_eq_left (by linarith)
      have e2 : max (0 : ℚ) (sp - 10) = 0 := max_eq_left (by linarith)
      have e3 : max (0 : ℚ) (0 - sp) = 0 := max_eq_left (by linarith)
      rw [e1, e2, e3]; ring
  · intro h
    rcases max_cases (0 : ℚ) (10 - (sp - sn)) with ⟨e1, l1⟩ | ⟨e1, l1⟩ <;>
      rcases max_cases (0 : ℚ) (sp - 10) with ⟨e2, l2⟩ | ⟨e2, l2⟩ <;>
        rcases max_cases (0 : ℚ) (0 - sp) with ⟨e3, l3⟩ | ⟨e3, l3⟩ <;>
          rw [e1, e2, e3] <;>
            (try exact absurd ⟨by linarith, by linarith, by linarith⟩ h) <;>
              linarith
  · intro sn' h
    have : max (0 : ℚ) (10 - (sp - sn)) ≤ max 0 (10 - (sp - sn')) :=
      max_le_max le_rfl (by linarith)
    linarith
  · intro sn' hviol h
    have e1 : max (0 : ℚ) (10 - (sp - sn)) = 10 - (sp - sn) :=
      max_eq_right (by linarith)
    have e2 : max (0 : ℚ) (10 - (sp - sn')) = 10 - (sp - sn') :=
      max_eq_right (by linarith)
    rw [e1, e2]; linarith
  · intro sp' h1 h2
    have e2 : max (0 : ℚ) (sp - 10) = sp - 10 := max_eq_right (by linarith)
    have e2' : max (0 : ℚ) (sp' - 10) = sp' - 10 := max_eq_right (by linarith)
    have e3 : max (0 : ℚ) (0 - sp) = 0 := max_eq_left (by linarith)
    have e3' : max (0 : ℚ) (0 - sp') = 0 := max_eq_left (by linarith)
    rw [e2, e2', e3, e3']
    rcases max_cases (0 : ℚ) (10 - (sp - sn)) with ⟨f1, g1⟩ | ⟨f1, g1⟩ <;>
      rcases max_cases (0 : ℚ) (10 - (sp' - sn)) with ⟨f2, g2⟩ | ⟨f2, g2⟩ <;>
        rw [f1, f2] <;> linarith
  · intro sp' h1 h2
    have m1 : max (0 : ℚ) (10 - (sp - sn)) ≤ max 0 (10 - (sp' - sn)) :=
      max_le_max le_rfl (by linarith)
    have m2 : max (0 : ℚ) (sp - 10) = 0 := max_eq_left (by linarith)
    have m2' : max (0 : ℚ) (sp' - 10) = 0 := max_eq_left (by linarith)
    have m3 : max (0 : ℚ) (0 - sp) ≤ max 0 (0 - sp') :=
      max_le_max le_rfl (by linarith)
    rw [m2, m2']; linarith
  · intro sp' h1 h2
    have m1 : max (0 : ℚ) (10 - (sp - sn)) ≤ max 0 (10 - (sp' - sn)) :=
      max_le_max le_rfl (by linarith)
    have m2 : max (0 : ℚ) (sp - 10) = 0 := max_eq_left (by linarith)
    have m2' : max (0 : ℚ) (sp' - 10) = 0 := max_eq_left (by linarith)
    have m3 : max (0 : ℚ) (0 - sp) = 0 - sp := max_eq_right (by linarith)
    have m3' : max (0 : ℚ) (0 - sp') = 0 - sp' := max_eq_right (by linarith)
    rw [m2, m2', m3, m3']; linarith

/-- Witness for bounded_margin_loss_spec: concrete evaluations at the default
hyperparameters, every hypothesis discharged numerically. -/
theorem bounded_margin_loss_spec_witness :
    bounded_margin_loss_default 5 0 = 5
      ∧ bounded_margin_loss_default 10 0 = 0
      ∧ ¬(10 ≤ (5 : ℚ) - 0 ∧ 0 ≤ (5 : ℚ) ∧ (5 : ℚ) ≤ 10)
      ∧ 0 < bounded_margin_loss_default 5 0
      ∧ bounded_margin_loss_default 5 0 < bounded_margin_loss_default 5 2
      ∧ bounded_margin_loss_default 11 0 ≤ bounded_margin_loss_default 12 0
      ∧ bounded_margin_loss_default (-1) 0 < bounded_margin_loss_default (-2) 0 := by
  have h5 := bounded_margin_loss_spec 5 0
  have h11 := bounded_margin_loss_spec 11 0
  have hm1 := bounded_margin_loss_spec (-1) 0
  refine ⟨by norm_num [bounded_margin_loss_default, bounded_margin_loss], ?_, by norm_num, ?_, ?_, ?_, ?_⟩
  · exact (bounded_margin_loss_spec 10 0).2.1.mpr ⟨by norm_num, by norm_num, by norm_num⟩
  · exact h5.2.2.1 (by norm_num)
  · exact h5.2.2.2.2.1 2 (by norm_num) (by norm_num)
  · exact h11.2.2.2.2.2.1 12 (by norm_num) (by norm_num)
  · exact hm1.2.2.2.2.2.2.2 (-2) (by norm_num) (by norm_num)

/-- Elementwise difference of swapped operands is the negated difference. -/
theorem zipWith_sub_swap (s t : List ℚ) :
    List.zipWith (fun a b => a - b) t s
      = (List.zipWith (fun a b => a - b) s t).map (fun x => -x) := by
  induction s generalizing t with
  | nil => cases t <;> simp
  | cons a s ih =>
      cases t with
      | nil => simp
      | cons b t => simp [ih, neg_sub]

/-- Elementwise absolute difference is unchanged by swapping the operands. -/
theorem zipWith_absSub_swap (s t : List ℚ) :
    List.zipWith (fun a b => |a - b|) t s = List.zipWith (fun a b => |a - b|) s t := by
  induction s generalizing t with
  | nil => cases t <;> simp
  | cons a s ih =>
      cases t with
      | nil => simp
      | cons b t => simp [ih, abs_sub_comm]

/-- Elementwise product is unchanged by swapping the operands. -/
theorem zipWith_mul_swap (s t : List ℚ) :
    List.zipWith (fun a b => a * b) t s = List.zipWith (fun a b => a * b) s t := by
  induction s generalizing t with
  | nil => cases t <;> simp
  | cons a s ih =>
      cases t with
      | nil => simp
      | cons b t => simp [ih, mul_comm]

/-- The five blocks of the feature vector, extracted by position. -/
theorem build_slices (s t : List ℚ) (h : s.length = t.length) :
    (build_pairwise_features s t).length = 5 * s.length
      ∧ (build_pairwise_features s t).take s.length = s
      ∧ ((build_pairwise_features s t).drop s.length).take s.length = t
      ∧ ((build_pairwise_features s t).drop (2 * s.length)).take s.length
          = List.zipWith (fun a b => a - b) s t
      ∧ ((build_pairwise_features s t).drop (3 * s.length)).take s.length
          = List.zipWith (fun a b => |a - b|) s t
      ∧ ((build_pairwise_features s t).drop (4 * s.length)).take s.length
          = List.zipWith (fun a b => a * b) s t := by
  have lD : (List.zipWith (fun a b => a - b) s t).length = s.length := by
    rw [List.length_zipWith, ← h, min_self]
  have lA : (List.zipWith (fun a b => |a - b|) s t).length = s.length := by
    rw [List.length_zipWith, ← h, min_self]
  have lM : (List.zipWith (fun a b => a * b) s t).length = s.length := by
    rw [List.length_zipWith, ← h, min_self]
  have hb : build_pairwise_features s t
      = s ++ (t ++ (List.zipWith (fun a b => a - b) s t
          ++ (List.zipWith (fun a b => |a - b|) s t
            ++ List.zipWith (fun a b => a * b) s t))) := by
    simp [build_pairwise_features, List.append_assoc]
  refine ⟨?_, ?_, ?_, ?_, ?_, ?_⟩
  · rw [hb]; simp [lD, lA, lM, ← h]; ring
  · rw [hb, List.take_left' rfl]
  · rw [hb, List.drop_left' rfl, List.take_left' h.symm]
  · rw [show 2 * s.length = s.length + s.length by ring, ← List.drop_drop, hb,
      List.drop_left' rfl, List.drop_left' h.symm, List.take_left' lD]
  · rw [show 3 * s.length = s.length + s.length + s.length by ring,
      ← List.drop_drop, ← List.drop_drop, hb, List.drop_left' rfl,
      List.drop_left' h.symm, List.drop_left' lD, List.take_left' lA]
  · rw [show 4 * s.length = s.length + s.length + s.length + s.length by ring,
      ← List.drop_drop, ← List.drop_drop, ← List.drop_drop, hb,
      List.drop_left' rfl, List.drop_left' h.symm, List.drop_left' lD,
      List.drop_left' lA, ← lM, List.take_length]

/-- C5 (amended): the feature vector has length 5d and is laid out as
[s, t, s - t, |s - t|, s * t]; swapping the arguments swaps the first two blocks
and negates the difference block, while the absolute-difference and product
blocks are unchanged; the whole vector is directional, differing between (s, t)
and (t, s) whenever s and t differ. -/
theorem build_pairwise_features_spec (s t : List ℚ) (h : s.length = t.length) :
    (build_pairwise_features s t).length = 5 * s.length
      ∧ (build_pairwise_features s t).take s.length = s
      ∧ ((build_pairwise_features s t).drop s.length).take s.length = t
      ∧ ((build_pairwise_features t s).drop (2 * s.length)).take s.length
          = (((build_pairwise_features s t).drop (2 * s.length)).take s.length).map
              (fun x => -x)
      ∧ ((build_pairwise_features t s).drop (3 * s.length)).take s.length
          = ((build_pairwise_features s t).drop (3 * s.length)).take s.length
      ∧ ((build_pairwise_features t s).drop (4 * s.length)).take s.length
          = ((build_pairwise_features s t).drop (4 * s.length)).take s.length
      ∧ (s ≠ t → build_pairwise_features s t ≠ build_pairwise_features t s) := by
  have hst := build_slices s t h
  have hts := build_slices t s h.symm
  rw [← h] at hts
  refine ⟨hst.1, hst.2.1, hst.2.2.1, ?_, ?_, ?_, ?_⟩
  · rw [hts.2.2.2.1, hst.2.2.2.1, zipWith_sub_swap]
  · rw [hts.2.2.2.2.1, hst.2.2.2.2.1, zipWith_absSub_swap]
  · rw [hts.2.2.2.2.2, hst.2.2.2.2.2, zipWith_mul_swap]
  · intro hne heq
    apply hne
    calc s = (build_pairwise_features s t).take s.length := hst.2.1.symm
      _ = (build_pairwise_features t s).take s.length := by rw [heq]
      _ = t := hts.2.1

/-- Counterexample to the claim that swapping the two embeddings changes the
abs-diff and product sub-vectors: at s = [0] and t = [1] (dimension d = 1, so
the blocks sit at [3:4] and [4:5]) both blocks are identical after the swap even
though s and t differ. -/
theorem build_pairwise_features_swap_counterexample :
    ([(0 : ℚ)] ≠ [(1 : ℚ)])
      ∧ ((build_pairwise_features [(0 : ℚ)] [1]).drop 3).take 1
          = ((build_pairwise_features [(1 : ℚ)] [0]).drop 3).take 1
      ∧ ((build_pairwise_features [(0 : ℚ)] [1]).drop 4).take 1
          = ((build_pairwise_features [(1 : ℚ)] [0]).drop 4).take 1 := by
  refine ⟨by simp, ?_, ?_⟩ <;> norm_num [build_pairwise_features]

/-- Witness for build_pairwise_features_spec at s = [1, 2], t = [3, 4]. -/
theorem build_pairwise_features_spec_witness :
    ([(1 : ℚ), 2].length = [(3 : ℚ), 4].length)
      ∧ (build_pairwise_features [(1 : ℚ), 2] [3, 4]).take 2 = [1, 2]
      ∧ ((build_pairwise_features [(1 : ℚ), 2] [3, 4]).drop 2).take 2 = [3, 4]
      ∧ ([(1 : ℚ), 2] ≠ [(3 : ℚ), 4])
      ∧ build_pairwise_features [(1 : ℚ), 2] [3, 4]
          ≠ build_pairwise_features [(3 : ℚ), 4] [1, 2] := by
  have h := build_pairwise_features_spec [(1 : ℚ), 2] [3, 4] (by simp)
  exact ⟨by simp, h.2.1, h.2.2.1, by simp, h.2.2.2.2.2.2 (by simp)⟩

/-- Zipping a list against a constant replicate of its own length applies the
function pointwise with that constant. -/
theorem zipWith_replicate_len {α β γ : Type} (f : α → β → γ) (l : List α) (c : β) :
    List.zipWith f l (List.replicate l.length c) = l.map (fun x => f x c) := by
  induction l with
  | nil => simp
  | cons x l ih => simp [List.replicate_succ, ih]

/-- Folding addition over a replicate of ones counts the elements. -/
theorem foldl_add_replicate_one (n : ℕ) :
    (List.replicate n (1 : ℚ)).foldl (fun a b => a + b) 0 = (n : ℚ) := by
  have key : ∀ (m : ℕ) (q : ℚ),
      (List.replicate m (1 : ℚ)).foldl (fun a b => a + b) q = q + (m : ℚ) := by
    intro m
    induction m with
    | zero => intro q; simp
    | succ m ih => intro q; simp [List.replicate_succ, ih]; ring
  simpa using key n 0

/-- Folding addition over a replicate of zeros gives zero. -/
theorem foldl_add_replicate_zero (n : ℕ) :
    (List.replicate n (0 : ℚ)).foldl (fun a b => a + b) 0 = 0 := by
  have key : ∀ (m : ℕ) (q : ℚ), (List.replicate m (0 : ℚ)).foldl (fun a b => a + b) q = q := by
    intro m
    induction m with
    | zero => intro q; simp
    | succ m ih => intro q; simp [List.replicate_succ, ih]
  simpa using key n 0

/-- Adding a zeroed-out vector of the right width to the zero vector returns the
zero vector. -/
theorem zipWith_zero_vector (hdim : ℕ) (v : List ℚ) (hv : v.length = hdim) :
    List.zipWith (fun a b => a + b) (List.replicate hdim 0) (v.map (fun x => x * 0))
      = List.replicate hdim 0 := by
  induction v generalizing hdim with
  | nil => subst hv; simp
  | cons x v ih =>
      subst hv
      simp only [List.length_cons, List.replicate_succ, List.map_cons, List.zipWith_cons_cons]
      rw [ih v.length rfl]
      norm_num

/-- Summing masked-to-zero token vectors of width hdim leaves the zero vector. -/
theorem foldl_zero_vectors (hdim : ℕ) (tokens : List (List ℚ))
    (hlen : ∀ v ∈ tokens, v.length = hdim) :
    (tokens.map (fun tok => tok.map (fun x => x * 0))).foldl
        (fun acc v => List.zipWith (fun a b => a + b) acc v) (List.replicate hdim 0)
      = List.replicate hdim 0 := by
  induction tokens with
  | nil => simp
  | cons tok tokens ih =>
      simp only [List.map_cons, List.foldl_cons]
      rw [zipWith_zero_vector hdim tok (hlen tok (by simp)),
        ih (fun v hv => hlen v (by simp [hv]))]

/-- C7: the mean-pooling divisor is always at least 1 (the clamp guards the
division); with an all-ones attention mask over n tokens the result is the
arithmetic mean, the vector sum divided by n; with an all-zero mask the result
is the zero vector of the hidden width, namely the (zero) masked sum itself. -/
theorem meanPool_spec (hdim : ℕ) (tokens : List (List ℚ))
    (hlen : ∀ v ∈ tokens, v.length = hdim) :
    (∀ mask : List ℚ, (1 : ℚ) ≤ max (mask.foldl (fun a b => a + b) 0) 1)
      ∧ (1 ≤ tokens.length →
          meanPool hdim tokens (List.replicate tokens.length 1)
            = (vecSum hdim tokens).map (fun x => x / (tokens.length : ℚ)))
      ∧ meanPool hdim tokens (List.replicate tokens.length 0) = List.replicate hdim 0 := by
  refine ⟨fun mask => le_max_right _ _, ?_, ?_⟩
  · intro hn
    have hmask : List.zipWith (fun tok m => tok.map (fun x => x * m)) tokens
        (List.replicate tokens.length (1 : ℚ)) = tokens := by
      rw [zipWith_replicate_len]
      simp
    have hcount : max ((List.replicate tokens.length (1 : ℚ)).foldl (fun a b => a + b) 0) 1
        = (tokens.length : ℚ) := by
      rw [foldl_add_replicate_one]
      exact max_eq_left (by exact_mod_cast hn)
    simp only [meanPool, hmask, hcount, vecSum]
  · have hmask : List.zipWith (fun tok m => tok.map (fun x => x * m)) tokens
        (List.replicate tokens.length (0 : ℚ))
        = tokens.map (fun tok => tok.map (fun x => x * 0)) := by
      rw [zipWith_replicate_len]
    have hcount : max ((List.replicate tokens.length (0 : ℚ)).foldl (fun a b => a + b) 0) 1
        = (1 : ℚ) := by
      rw [foldl_add_replicate_zero]; exact max_eq_right zero_le_one
    simp only [meanPool, hmask, hcount]
    rw [foldl_zero_vectors hdim tokens hlen]
    simp

/-- Witness for meanPool_spec: two one-dimensional tokens with values 2 and 4
average to 3 under the all-ones mask and pool to the zero vector under the
all-zero mask. -/
theorem meanPool_spec_witness :
    (∀ v ∈ [[(2 : ℚ)], [4]], v.length = 1)
      ∧ meanPool 1 [[(2 : ℚ)], [4]] (List.replicate 2 1) = [3]
      ∧ meanPool 1 [[(2 : ℚ)], [4]] (List.replicate 2 0) = [0] := by
  have h := meanPool_spec 1 [[(2 : ℚ)], [4]] (by intro v hv; fin_cases hv <;> rfl)
  refine ⟨by intro v hv; fin_cases hv <;> rfl, ?_, ?_⟩
  · rw [show ([[(2 : ℚ)], [4]].length) = 2 from rfl] at h
    rw [h.2.1 (by norm_num)]
    norm_num [vecSum]
  · have := h.2.2
    rw [show ([[(2 : ℚ)], [4]].length) = 2 from rfl] at this
    simpa using this

/-- The prediction scan only ever returns 0 or 1. -/
theorem predLoop_zero_or_one (f b : List ℚ → ℚ) (l : List (List ℚ)) :
    predLoop f b l = 0 ∨ predLoop f b l = 1 := by
  induction l with
  | nil => right; rfl
  | cons e₁ l ih =>
      cases l with
      | nil => right; rfl
      | cons e₂ rest =>
          by_cases hneg : avgScore f b e₁ e₂ < 0
          · left; simp [predLoop, hneg]
          · simpa [predLoop, hneg] using ih

/-- The prediction scan returns 0 exactly when some adjacent pair scores
negative. -/
theorem predLoop_eq_zero_iff (f b : List ℚ → ℚ) (l : List (List ℚ)) :
    predLoop f b l = 0
      ↔ ∃ i, i + 1 < l.length ∧ avgScore f b (l.getD i []) (l.getD (i + 1) []) < 0 := by
  induction l with
  | nil => simp [predLoop]
  | cons e₁ l ih =>
      cases l with
      | nil => simp [predLoop]
      | cons e₂ rest =>
          by_cases hneg : avgScore f b e₁ e₂ < 0
          · constructor
            · intro _
              exact ⟨0, by simp, by simpa using hneg⟩
            · intro _
              simp [predLoop, hneg]
          · constructor
            · intro h0
              obtain ⟨i, hi, hlt⟩ := ih.mp (by simpa [predLoop, hneg] using h0)
              exact ⟨i + 1, by simpa using hi, by simpa using hlt⟩
            · rintro ⟨i, hi, hlt⟩
              cases i with
              | zero => exact absurd (by simpa using hlt) hneg
              | succ j =>
                  have h0 : predLoop f b (e₂ :: rest) = 0 :=
                    ih.mpr ⟨j, by simpa using hi, by simpa using hlt⟩
                  simpa [predLoop, hneg] using h0

/-- C4: compute_dialogue_pred is the deterministic scan of the once-encoded
utterance list (no sampling oracle is consumed); it returns 0 exactly when some
adjacent pair has a negative averaged forward/backward score, returns 1 exactly
when no pair does, and it short-circuits: once a negative pair is seen the
result is 0 whatever follows it. -/
theorem compute_dialogue_pred_spec (d : Dialogue) (enc : String → List ℚ)
    (scorer_fwd scorer_bwd : List ℚ → ℚ) :
    (compute_dialogue_pred d enc scorer_fwd scorer_bwd
        = predLoop scorer_fwd scorer_bwd (d.map (fun t => enc t.2)))
      ∧ (compute_dialogue_pred d enc scorer_fwd scorer_bwd = 0
          ↔ ∃ i, i + 1 < d.length
              ∧ avgScore scorer_fwd scorer_bwd
                  ((d.map (fun t => enc t.2)).getD i [])
                  ((d.map (fun t => enc t.2)).getD (i + 1) []) < 0)
      ∧ (compute_dialogue_pred d enc scorer_fwd scorer_bwd = 1
          ↔ ¬∃ i, i + 1 < d.length
              ∧ avgScore scorer_fwd scorer_bwd
                  ((d.map (fun t => enc t.2)).getD i [])
                  ((d.map (fun t => enc t.2)).getD (i + 1) []) < 0)
      ∧ (∀ e₁ e₂ rest rest', avgScore scorer_fwd scorer_bwd e₁ e₂ < 0 →
          predLoop scorer_fwd scorer_bwd (e₁ :: e₂ :: rest) = 0
            ∧ predLoop scorer_fwd scorer_bwd (e₁ :: e₂ :: rest)
                = predLoop scorer_fwd scorer_bwd (e₁ :: e₂ :: rest')) := by
  have hlen : (d.map (fun t => enc t.2)).length = d.length := by simp
  have hz := predLoop_eq_zero_iff scorer_fwd scorer_bwd (d.map (fun t => enc t.2))
  rw [hlen] at hz
  refine ⟨rfl, hz, ?_, ?_⟩
  · have hiff : compute_dialogue_pred d enc scorer_fwd scorer_bwd
        = predLoop scorer_fwd scorer_bwd (d.map (fun t => enc t.2)) := rfl
    constructor
    · intro h1 hex
      have h0 : predLoop scorer_fwd scorer_bwd (d.map (fun t => enc t.2)) = 0 := hz.mpr hex
      rw [hiff, h0] at h1
      exact absurd h1 (by decide)
    · intro hnex
      rcases predLoop_zero_or_one scorer_fwd scorer_bwd (d.map (fun t => enc t.2)) with h | h
      · exact absurd (hz.mp h) hnex
      · rw [hiff, h]
  · intro e₁ e₂ rest rest' hneg
    constructor
    · simp [predLoop, hneg]
    · simp [predLoop, hneg]

/-- Witness for compute_dialogue_pred_spec: with constant scorers returning -1
every pair averages to -1, so a two-turn dialogue is classified incoherent. -/
theorem compute_dialogue_pred_spec_witness :
    compute_dialogue_pred [("A", "a"), ("B", "b")] (fun _ => [])
        (fun _ => (-1 : ℚ)) (fun _ => (-1 : ℚ)) = 0
      ∧ avgScore (fun _ => (-1 : ℚ)) (fun _ => (-1 : ℚ)) [] [] < 0
      ∧ predLoop (fun _ => (-1 : ℚ)) (fun _ => (-1 : ℚ)) [[], [], []] = 0 := by
  have havg : avgScore (fun _ => (-1 : ℚ)) (fun _ => (-1 : ℚ)) [] [] < 0 := by
    norm_num [avgScore]
  have h := compute_dialogue_pred_spec [("A", "a"), ("B", "b")] (fun _ => [])
    (fun _ => (-1 : ℚ)) (fun _ => (-1 : ℚ))
  refine ⟨?_, havg, ?_⟩
  · exact h.2.1.mpr ⟨0, by norm_num, by simpa using havg⟩
  · exact ((h.2.2.2) [] [] [[]] [] havg).1

/-- Folding the keep-the-latest update over a list is the same as taking the
last kept element: the imperative loop that overwrites a variable at every
successful iteration ends up holding the last successful value. -/
theorem foldl_overwrite_getLast {α β : Type} (f : α → Option β) (l : List α)
    (init : Option β) :
    l.foldl (fun acc x => keepLatest acc (f x)) init
      = keepLatest init ((l.filterMap f).getLast? ) := by
  induction l generalizing init with
  | nil => simp [keepLatest]
  | cons x l ih =>
      simp only [List.foldl_cons, List.filterMap_cons]
      cases hfx : f x with
      | none =>
          exact ih init
      | some v =>
          have step : List.foldl (fun acc x => keepLatest acc (f x))
              (keepLatest init (some v)) l
              = keepLatest (some v) ((l.filterMap f).getLast?) := ih (some v)
          rw [step]
          show keepLatest (some v) ((l.filterMap f).getLast?)
              = keepLatest init ((v :: l.filterMap f).getLast?)
          cases hfl : l.filterMap f with
          | nil => rfl
          | cons y ys =>
              rw [List.getLast?_cons_cons]
              cases hgl : (y :: ys).getLast? with
              | none => exact absurd (List.getLast?_eq_none_iff.mp hgl) (by simp)
              | some z => rfl

/-- C8: the per-dialogue training-accuracy flag of train_one_epoch holds exactly
when the last computed pair of the dialogue has its positive score strictly above
its negative score; the pairs computed at earlier positions never enter the
flag. -/
theorem dialogueCorrect_last_pair (d : Dialogue) (enc : String → List ℚ)
    (scorer_fwd scorer_bwd : List ℚ → ℚ) (pick : ℕ → List ℕ → ℕ) :
    trainLastPair d enc scorer_fwd scorer_bwd pick
        = (trainDialoguePairs d enc scorer_fwd scorer_bwd pick).getLast?
      ∧ (dialogueCorrect d enc scorer_fwd scorer_bwd pick = true
          ↔ ∃ p q, (trainDialoguePairs d enc scorer_fwd scorer_bwd pick).getLast?
                = some (p, q) ∧ q < p) := by
  have key := foldl_overwrite_getLast (trainPairAt d enc scorer_fwd scorer_bwd pick)
    (List.range (d.length - 1)) none
  have hlast : trainLastPair d enc scorer_fwd scorer_bwd pick
      = (trainDialoguePairs d enc scorer_fwd scorer_bwd pick).getLast? := by
    rw [trainLastPair, trainDialoguePairs, key]
    cases (List.filterMap (trainPairAt d enc scorer_fwd scorer_bwd pick)
        (List.range (d.length - 1))).getLast? <;> rfl
  refine ⟨hlast, ?_⟩
  rw [dialogueCorrect, hlast]
  cases hgl : (trainDialoguePairs d enc scorer_fwd scorer_bwd pick).getLast? with
  | none => simp
  | some pq =>
      obtain ⟨p, q⟩ := pq
      simp only [decide_eq_true_eq]
      constructor
      · intro hlt
        exact ⟨p, q, rfl, hlt⟩
      · rintro ⟨p', q', hsome, hlt⟩
        have h2 : (p, q) = (p', q') := by injection hsome
        cases h2
        exact hlt

/-- C6: the positive-class weight is the negative count over the positive count
of the training split (100 positives with 60 negatives give 3/5 = 0.6); both the
training and the validation criteria are built from the training-split weight,
while the validation-split weight is computed separately and, at labels where
the two splits are imbalanced differently, visibly differs from the weight the
validation criterion actually uses. -/
theorem posWeight_criteria_spec :
    posWeight (List.replicate 100 1 ++ List.replicate 60 0) = 3 / 5
      ∧ (∀ train_labels val_labels : List ℕ,
          (setupCriteria train_labels val_labels).train_criterion_weight
              = posWeight train_labels
            ∧ (setupCriteria train_labels val_labels).val_criterion_weight
              = posWeight train_labels
            ∧ (setupCriteria train_labels val_labels).val_pos_weight
              = posWeight val_labels)
      ∧ (setupCriteria [1, 1, 0] [1, 0]).val_criterion_weight
          ≠ (setupCriteria [1, 1, 0] [1, 0]).val_pos_weight := by
  refine ⟨?_, fun train_labels val_labels => ⟨rfl, rfl, rfl⟩, ?_⟩
  · rw [posWeight]
    norm_num [List.sum_append, List.sum_replicate, List.length_append]
  · show posWeight [1, 1, 0] ≠ posWeight [1, 0]
    rw [posWeight, posWeight]
    norm_num

/-- A successful exit of the shuffle loop returns one of the drawn shuffles, and
that shuffle differs from the original list. -/
theorem shuffleLoopAux_some (att : ℕ → List String) (orig : List String) :
    ∀ j fuel s, shuffleLoopAux att orig j fuel = some s → s ≠ orig ∧ ∃ i, s = att i := by
  intro j fuel
  induction fuel generalizing j with
  | zero => intro s h; exact absurd h (by simp [shuffleLoopAux])
  | succ fuel ih =>
      intro s h
      rw [shuffleLoopAux] at h
      by_cases hne : att j ≠ orig
      · rw [if_pos hne] at h
        cases h
        exact ⟨hne, j, rfl⟩
      · rw [if_neg hne] at h
        exact ih (j + 1) s h

/-- Every list that is a permutation of the constant two-element list is that
list itself. -/
theorem perm_pair_const (l : List String) (h : l.Perm ["ok", "ok"]) :
    l = ["ok", "ok"] := by
  have : l.Perm (List.replicate 2 "ok") := h
  simpa using List.perm_replicate.mp this

/-- When the target speaker has at least 2 turns and the shuffle loop never
exits, the permutation iteration produces nothing (the source is still
looping). -/
theorem permuteOnce_shuffle_none (d : Dialogue) (spk : String) (o : PermOracle)
    (it fuel : ℕ) (h2 : ¬(speakerIndices d spk).length < 2)
    (hn : shuffleLoop (o.shuffleAtt it)
        ((o.samplePick it).map (fun i => (speakerUtterances d spk).getD i "")) fuel
      = none) :
    permuteOnce d spk o it fuel = none := by
  simp only [permuteOnce]
  rw [if_neg h2, hn]

/-- C2 (on the LCD code): whenever every drawn shuffle is a permutation of the
all-equal selected texts (as random.shuffle guarantees), the shuffle loop of
permute_dialogue exits at no finite attempt count whatsoever: there is no bound
of 20 retries, and the concrete dialogue whose speaker A twice says the same
utterance never yields a permutation iteration result. -/
theorem shuffle_loop_unbounded :
    (∀ fuel (att : ℕ → List String),
        (∀ j, (att j).Perm ["ok", "ok"]) → shuffleLoop att ["ok", "ok"] fuel = none)
      ∧ (∀ fuel, permuteOnce [("A", "ok"), ("B", "x"), ("A", "ok")] "A"
          ⟨fun _ => [0, 1], fun _ _ => ["ok", "ok"]⟩ 0 fuel = none) := by
  have key : ∀ (att : ℕ → List String), (∀ j, (att j).Perm ["ok", "ok"]) →
      ∀ fuel j, shuffleLoopAux att ["ok", "ok"] j fuel = none := by
    intro att hp fuel
    induction fuel with
    | zero => intro j; rfl
    | succ fuel ih =>
        intro j
        rw [shuffleLoopAux]
        rw [if_neg (by simpa using perm_pair_const (att j) (hp j))]
        exact ih (j + 1)
  constructor
  · intro fuel att hp
    exact key att hp fuel 0
  · intro fuel
    apply permuteOnce_shuffle_none
    · decide
    · show shuffleLoop (fun _ => ["ok", "ok"]) ["ok", "ok"] fuel = none
      exact key (fun _ => ["ok", "ok"]) (fun _ => List.Perm.refl _) fuel 0

/-- Witness for shuffle_loop_unbounded: with the constant shuffle draw the loop
is still running after 21 attempts, one more than the claimed 20-attempt
bound. -/
theorem shuffle_loop_unbounded_witness :
    max_attempts < 21
      ∧ shuffleLoop (fun _ => ["ok", "ok"]) ["ok", "ok"] 21 = none
      ∧ permuteOnce [("A", "ok"), ("B", "x"), ("A", "ok")] "A"
          ⟨fun _ => [0, 1], fun _ _ => ["ok", "ok"]⟩ 0 21 = none := by
  refine ⟨by norm_num [max_attempts], ?_, shuffle_loop_unbounded.2 21⟩
  exact shuffle_loop_unbounded.1 21 (fun _ => ["ok", "ok"]) (fun _ => List.Perm.refl _)

/-- A successful Option-monad traversal preserves the list length. -/
theorem mapM_some_length {α β : Type} (f : α → Option β) :
    ∀ (l : List α) (l' : List β), l.mapM f = some l' → l'.length = l.length := by
  intro l
  induction l with
  | nil =>
      intro l' h
      simp only [List.mapM_nil, pure, Option.some.injEq] at h
      subst h; rfl
  | cons x xs ih =>
      intro l' h
      rw [List.mapM_cons] at h
      cases hfx : f x with
      | none => rw [hfx] at h; exact absurd h (by simp [Bind.bind])
      | some v =>
          rw [hfx] at h
          cases hxs : xs.mapM f with
          | none => rw [hxs] at h; exact absurd h (by simp [Bind.bind])
          | some vs =>
              rw [hxs] at h
              simp only [Bind.bind, Option.bind, pure, Option.some.injEq] at h
              subst h
              simp [ih vs hxs]

/-- An Option-monad traversal whose entries all succeed with the same constant
returns the constant replicated. -/
theorem mapM_const_some {α β : Type} (f : α → Option β) (c : β) :
    ∀ (l : List α), (∀ x ∈ l, f x = some c) →
      l.mapM f = some (List.replicate l.length c) := by
  intro l
  induction l with
  | nil => intro _; rfl
  | cons x xs ih =>
      intro h
      rw [List.mapM_cons, h x (by simp), ih (fun y hy => h y (by simp [hy]))]
      rfl

/-- A speaker with fewer than 2 turns makes the permutation iteration hand back
the original dialogue itself. -/
theorem permuteOnce_lt_two (d : Dialogue) (spk : String) (o : PermOracle)
    (it fuel : ℕ) (h : (speakerIndices d spk).length < 2) :
    permuteOnce d spk o it fuel = some d := by
  simp only [permuteOnce]
  rw [if_pos h]

/-- C10: the evaluation in test_experiment draws the speaker to permute from the
constant pair of labels A and B whatever the dialogue contains; whenever
permute_dialogue returns, it returns exactly num_permutations dialogues; when
the drawn label has fewer than 2 turns every returned dialogue is an exact copy
of the original, and testExamples still records each copy with true label 0. -/
theorem test_experiment_copy_spec (d : Dialogue) (spk : String) (coin : Bool)
    (o : PermOracle) (fuel n : ℕ) :
    (speakerChoice coin = "A" ∨ speakerChoice coin = "B")
      ∧ (∀ l, permute_dialogue d spk o fuel n = some l → l.length = n)
      ∧ ((speakerIndices d spk).length < 2 →
          permute_dialogue d spk o fuel n = some (List.replicate n d))
      ∧ (3 ≤ d.length → (speakerIndices d (speakerChoice coin)).length < 2 →
          testExamples d coin o fuel n = some ((1, d) :: List.replicate n (0, d))) := by
  have hrep : (speakerIndices d (speakerChoice coin)).length < 2 →
      permute_dialogue d (speakerChoice coin) o fuel n = some (List.replicate n d) := by
    intro h
    rw [permute_dialogue,
      mapM_const_some _ _ _ (fun it _ => permuteOnce_lt_two d (speakerChoice coin) o it fuel h),
      List.length_range]
  refine ⟨by cases coin; exact Or.inr rfl; exact Or.inl rfl, ?_, ?_, ?_⟩
  · intro l h
    have := mapM_some_length _ _ _ h
    rwa [List.length_range] at this
  · intro h
    rw [permute_dialogue,
      mapM_const_some _ _ _ (fun it _ => permuteOnce_lt_two d spk o it fuel h),
      List.length_range]
  · intro h3 hlt
    rw [testExamples, if_neg (by omega), hrep hlt]
    simp [List.map_replicate]

/-- Witness for test_experiment_copy_spec: a three-turn dialogue whose speakers
are named X and Y gets its original recorded with label 1 and an exact copy of
itself recorded with label 0. -/
theorem test_experiment_copy_spec_witness :
    (3 ≤ ([("X", "u1"), ("Y", "u2"), ("X", "u3")] : Dialogue).length)
      ∧ (speakerIndices [("X", "u1"), ("Y", "u2"), ("X", "u3")] (speakerChoice true)).length < 2
      ∧ testExamples [("X", "u1"), ("Y", "u2"), ("X", "u3")] true
          ⟨fun _ => [], fun _ _ => []⟩ 0 1
        = some [(1, [("X", "u1"), ("Y", "u2"), ("X", "u3")]),
                (0, [("X", "u1"), ("Y", "u2"), ("X", "u3")])] := by
  have h := test_experiment_copy_spec [("X", "u1"), ("Y", "u2"), ("X", "u3")] "A" true
    ⟨fun _ => [], fun _ _ => []⟩ 0 1
  refine ⟨by norm_num, by decide, ?_⟩
  have := h.2.2.2 (by norm_num) (by decide)
  simpa using this

/-- Counterexample to the emission invariant on the LCD evaluation path: for a
four-turn dialogue whose speakers are named X and Y, the drawn label B has no
turns, so permute_dialogue hands back an exact copy of the source, and
testExamples records that identical dialogue with true label 0. -/
theorem negative_emission_counterexample :
    permute_dialogue [("X", "hi"), ("Y", "yo"), ("X", "ok"), ("Y", "no")] "B"
        ⟨fun _ => [], fun _ _ => []⟩ 0 1
      = some [[("X", "hi"), ("Y", "yo"), ("X", "ok"), ("Y", "no")]]
      ∧ testExamples [("X", "hi"), ("Y", "yo"), ("X", "ok"), ("Y", "no")] false
          ⟨fun _ => [], fun _ _ => []⟩ 0 1
        = some [(1, [("X", "hi"), ("Y", "yo"), ("X", "ok"), ("Y", "no")]),
                (0, [("X", "hi"), ("Y", "yo"), ("X", "ok"), ("Y", "no")])] := by
  constructor <;> decide

/-- Positional assignment preserves the list length. -/
theorem substAt_length (assignments : List (ℕ × String)) :
    ∀ base : List String, (substAt base assignments).length = base.length := by
  induction assignments with
  | nil => intro base; rfl
  | cons a rest ih =>
      intro base
      rw [substAt, List.foldl_cons]
      have := ih (base.set a.1 a.2)
      rw [substAt] at this
      rw [this, List.length_set]

/-- Positions never assigned keep their original entries. -/
theorem substAt_getElem?_not_mem (assignments : List (ℕ × String)) :
    ∀ (base : List String) (i : ℕ), i ∉ assignments.map Prod.fst →
      (substAt base assignments)[i]? = base[i]? := by
  induction assignments with
  | nil => intro base i _; rfl
  | cons a rest ih =>
      intro base i hi
      rw [substAt, List.foldl_cons]
      have hi1 : i ∉ rest.map Prod.fst := fun hmem => hi (by simp [hmem])
      have hi0 : a.1 ≠ i := fun he => hi (by simp [he])
      have := ih (base.set a.1 a.2) i hi1
      rw [substAt] at this
      rw [this, List.getElem?_set_ne hi0]

/-- The entry written at the j-th sampled position is the j-th shuffled value,
provided the sampled positions are distinct and in range. -/
theorem substAt_getElem?_assigned (idxs : List ℕ) :
    ∀ (vals base : List String), idxs.Nodup → vals.length = idxs.length →
      (∀ i ∈ idxs, i < base.length) →
      ∀ (j i : ℕ), idxs[j]? = some i →
        (substAt base (idxs.zip vals))[i]? = vals[j]? := by
  induction idxs with
  | nil => intro vals base _ _ _ j i h; simp at h
  | cons i0 idxs ih =>
      intro vals base hnd hlen hb j i hj
      cases vals with
      | nil => simp at hlen
      | cons v0 vals =>
          rw [List.zip_cons_cons, substAt, List.foldl_cons]
          have hlen' : vals.length = idxs.length := by simpa using hlen
          cases j with
          | zero =>
              have hi : i = i0 := by simpa using hj.symm
              subst hi
              have hmfst : (idxs.zip vals).map Prod.fst = idxs :=
                List.map_fst_zip idxs vals (by omega)
              have hnotmem : i ∉ (idxs.zip vals).map Prod.fst := by
                rw [hmfst]
                exact (List.nodup_cons.mp hnd).1
              have hrest := substAt_getElem?_not_mem (idxs.zip vals) (base.set i v0) i hnotmem
              rw [substAt] at hrest
              rw [hrest, List.getElem?_set_self (hb i (by simp))]
              simp
          | succ j =>
              have hj' : idxs[j]? = some i := by simpa using hj
              have := ih vals (base.set i0 v0) (List.nodup_cons.mp hnd).2 hlen'
                (fun x hx => by rw [List.length_set]; exact hb x (by simp [hx])) j i hj'
              rw [substAt] at this
              rw [this]
              simp

/-- Two distinct lists of equal length disagree at some position in range. -/
theorem exists_getElem?_ne {α : Type} (l₁ l₂ : List α)
    (hlen : l₁.length = l₂.length) (hne : l₁ ≠ l₂) :
    ∃ j, j < l₁.length ∧ l₁[j]? ≠ l₂[j]? := by
  by_contra hall
  push_neg at hall
  apply hne
  apply List.ext_getElem?
  intro n
  by_cases hn : n < l₁.length
  · exact hall n hn
  · rw [List.getElem?_eq_none (by omega), List.getElem?_eq_none (by omega)]

/-- Rebuilding a dialogue with the original utterance list of the target speaker
reproduces the dialogue. -/
theorem reconstructDialogue_self (spk : String) :
    ∀ d : Dialogue, reconstructDialogue spk d (speakerUtterances d spk) = d := by
  intro d
  induction d with
  | nil => rfl
  | cons t rest ih =>
      obtain ⟨s, u⟩ := t
      by_cases hs : s = spk
      · have husp : speakerUtterances ((s, u) :: rest) spk
            = u :: speakerUtterances rest spk := by
          simp [speakerUtterances, hs]
        rw [husp, reconstructDialogue, if_pos hs]
        simp [ih]
      · have husp : speakerUtterances ((s, u) :: rest) spk = speakerUtterances rest spk := by
          simp [speakerUtterances, hs]
        rw [husp, reconstructDialogue, if_neg hs, ih]

/-- Rebuilding a dialogue with a changed utterance list of the right length
changes the dialogue. -/
theorem reconstructDialogue_ne_self (spk : String) :
    ∀ (d : Dialogue) (news : List String),
      news.length = (speakerUtterances d spk).length →
      news ≠ speakerUtterances d spk →
      reconstructDialogue spk d news ≠ d := by
  intro d
  induction d with
  | nil =>
      intro news hlen hne
      simp only [speakerUtterances, List.filter_nil, List.map_nil,
        List.length_nil] at hlen hne
      exact absurd (List.eq_nil_of_length_eq_zero hlen) hne
  | cons t rest ih =>
      intro news hlen hne
      obtain ⟨s, u⟩ := t
      by_cases hs : s = spk
      · have husp : speakerUtterances ((s, u) :: rest) spk
            = u :: speakerUtterances rest spk := by
          simp [speakerUtterances, hs]
        rw [husp] at hlen hne
        cases news with
        | nil => simp at hlen
        | cons nh nt =>
            rw [reconstructDialogue, if_pos hs]
            intro heq
            injection heq with h1 h2
            have hnh : nh = u := by
              have := congrArg Prod.snd h1
              simpa using this
            subst hnh
            have hnt : nt ≠ speakerUtterances rest spk := by
              intro hq
              exact hne (by rw [hq])
            have hlen' : nt.length = (speakerUtterances rest spk).length := by
              simpa using hlen
            exact ih nt hlen' hnt (by simpa using h2)
      · have husp : speakerUtterances ((s, u) :: rest) spk = speakerUtterances rest spk := by
          simp [speakerUtterances, hs]
        rw [husp] at hlen hne
        rw [reconstructDialogue, if_neg hs]
        intro heq
        injection heq with h1 h2
        exact ih news hlen hne h2

/-- When the target speaker has at least two turns, the sampled positions are
distinct and in range, and every drawn shuffle is a permutation of the selected
texts (as random.shuffle guarantees), a permutation iteration that returns a
dialogue returns one that differs from the source. -/
theorem permuteOnce_success_ne (d : Dialogue) (spk : String) (o : PermOracle)
    (it fuel : ℕ) (p : Dialogue)
    (h2 : 2 ≤ (speakerIndices d spk).length)
    (hnd : (o.samplePick it).Nodup)
    (hbound : ∀ i ∈ o.samplePick it, i < (speakerUtterances d spk).length)
    (hperm : ∀ j, (o.shuffleAtt it j).Perm
        ((o.samplePick it).map (fun i => (speakerUtterances d spk).getD i "")))
    (hres : permuteOnce d spk o it fuel = some p) :
    p ≠ d := by
  simp only [permuteOnce] at hres
  rw [if_neg (by omega)] at hres
  cases hsl : shuffleLoop (o.shuffleAtt it)
      ((o.samplePick it).map (fun i => (speakerUtterances d spk).getD i "")) fuel with
  | none => rw [hsl] at hres; exact absurd hres (by simp)
  | some shuffled =>
      rw [hsl] at hres
      have hp : reconstructDialogue spk d
          (substAt (speakerUtterances d spk) ((o.samplePick it).zip shuffled)) = p := by
        injection hres
      obtain ⟨hne_shuf, i0, hi0⟩ :=
        shuffleLoopAux_some (o.shuffleAtt it) _ 0 fuel shuffled hsl
      have hperm_s : shuffled.Perm
          ((o.samplePick it).map (fun i => (speakerUtterances d spk).getD i "")) :=
        hi0 ▸ hperm i0
      have hlen_s : shuffled.length
          = ((o.samplePick it).map (fun i => (speakerUtterances d spk).getD i "")).length :=
        hperm_s.length_eq
      have hlen_sub : shuffled.length = (o.samplePick it).length := by
        rw [hlen_s, List.length_map]
      obtain ⟨j, hj, hne_j⟩ := exists_getElem?_ne shuffled _ hlen_s hne_shuf
      have hjsub : j < (o.samplePick it).length := by omega
      have hsubj : (o.samplePick it)[j]? = some ((o.samplePick it).get ⟨j, hjsub⟩) := by
        simp [List.getElem?_eq_getElem hjsub]
      have himem : (o.samplePick it).get ⟨j, hjsub⟩ ∈ o.samplePick it :=
        List.get_mem _ _ hjsub
      have hilt : (o.samplePick it).get ⟨j, hjsub⟩ < (speakerUtterances d spk).length :=
        hbound _ himem
      have hnews := substAt_getElem?_assigned (o.samplePick it) shuffled
        (speakerUtterances d spk) hnd (by omega) hbound j _ hsubj
      have hts_j : ((o.samplePick it).map
            (fun i => (speakerUtterances d spk).getD i ""))[j]?
          = some ((speakerUtterances d spk).getD ((o.samplePick it).get ⟨j, hjsub⟩) "") := by
        rw [List.getElem?_map, hsubj]
        rfl
      have hutts_i : (speakerUtterances d spk)[(o.samplePick it).get ⟨j, hjsub⟩]?
          = some ((speakerUtterances d spk).getD ((o.samplePick it).get ⟨j, hjsub⟩) "") := by
        have h1 : (speakerUtterances d spk)[(o.samplePick it).get ⟨j, hjsub⟩]?
            = some ((speakerUtterances d spk).get ⟨_, hilt⟩) := by
          simp [List.getElem?_eq_getElem hilt]
        rw [h1, List.getD_eq_getElem?_getD, h1]
        rfl
      have hnews_ne : substAt (speakerUtterances d spk) ((o.samplePick it).zip shuffled)
          ≠ speakerUtterances d spk := by
        intro heq
        apply hne_j
        calc shuffled[j]?
            = (substAt (speakerUtterances d spk)
                ((o.samplePick it).zip shuffled))[(o.samplePick it).get ⟨j, hjsub⟩]? :=
              hnews.symm
          _ = (speakerUtterances d spk)[(o.samplePick it).get ⟨j, hjsub⟩]? := by rw [heq]
          _ = some ((speakerUtterances d spk).getD ((o.samplePick it).get ⟨j, hjsub⟩) "") :=
              hutts_i
          _ = ((o.samplePick it).map
                (fun i => (speakerUtterances d spk).getD i ""))[j]? := hts_j.symm
      have hlen_news : (substAt (speakerUtterances d spk)
          ((o.samplePick it).zip shuffled)).length = (speakerUtterances d spk).length :=
        substAt_length _ _
      rw [← hp]
      exact reconstructDialogue_ne_self spk d _ hlen_news hnews_ne

/-- Any negative that the dataset constructor emits differs from its source
dialogue: the final guard of the synthesis block enforces the invariant. -/
theorem htMakeNegative_some_ne (d : Dialogue) (o : HTOracle) (nd : Dialogue)
    (h : htMakeNegative d o = some nd) : nd ≠ d := by
  simp only [htMakeNegative] at h
  split at h
  · exact absurd h (by simp)
  · split at h
    · exact absurd h (by simp)
    · split at h
      · exact absurd h (by simp)
      · split at h
        · next hguard =>
            cases h
            exact hguard
        · exact absurd h (by simp)

/-- C1 (amended): every synthetic negative the document-classifier dataset emits
differs from its source (and a dialogue with no valid negative contributes
none, the search returning nothing); on the LCD side a permutation iteration
whose target speaker has at least 2 turns returns a dialogue differing from the
source whenever the sampled positions are distinct and in range and the shuffle
draws are permutations — but when the target speaker has fewer than 2 turns the
iteration returns the unchanged original, which the evaluation then labels 0. -/
theorem negative_differs_spec (d : Dialogue) (oH : HTOracle) (nd : Dialogue)
    (spk : String) (o : PermOracle) (it fuel : ℕ) (p : Dialogue) :
    (htMakeNegative d oH = some nd → nd ≠ d)
      ∧ (2 ≤ (speakerIndices d spk).length →
          (o.samplePick it).Nodup →
          (∀ i ∈ o.samplePick it, i < (speakerUtterances d spk).length) →
          (∀ j, (o.shuffleAtt it j).Perm
              ((o.samplePick it).map (fun i => (speakerUtterances d spk).getD i ""))) →
          permuteOnce d spk o it fuel = some p → p ≠ d)
      ∧ ((speakerIndices d spk).length < 2 → permuteOnce d spk o it fuel = some d) :=
  ⟨htMakeNegative_some_ne d oH nd,
   fun h2 hnd hb hp hres => permuteOnce_success_ne d spk o it fuel p h2 hnd hb hp hres,
   permuteOnce_lt_two d spk o it fuel⟩

/-- Witness for negative_differs_spec: a concrete dataset-constructor negative
and a concrete successful LCD permutation, both differing from their source, and
a concrete no-turn speaker for which the LCD iteration returns the copy. -/
theorem negative_differs_spec_witness :
    (htMakeNegative [("A", "x"), ("B", "y"), ("A", "z")]
          ⟨fun _ => 0, fun _ => [0, 1], fun _ l => l.reverse⟩
        = some [("A", "z"), ("B", "y"), ("A", "x")]
      ∧ ([("A", "z"), ("B", "y"), ("A", "x")] : Dialogue)
          ≠ [("A", "x"), ("B", "y"), ("A", "z")])
      ∧ (permuteOnce [("A", "x"), ("B", "y"), ("A", "z")] "A"
            ⟨fun _ => [0, 1], fun _ _ => ["z", "x"]⟩ 0 1
          = some [("A", "z"), ("B", "y"), ("A", "x")]
        ∧ ([("A", "z"), ("B", "y"), ("A", "x")] : Dialogue)
            ≠ [("A", "x"), ("B", "y"), ("A", "z")])
      ∧ permuteOnce [("X", "u"), ("Y", "v")] "A" ⟨fun _ => [], fun _ _ => []⟩ 0 0
          = some [("X", "u"), ("Y", "v")] := by
  have h1 := negative_differs_spec [("A", "x"), ("B", "y"), ("A", "z")]
    ⟨fun _ => 0, fun _ => [0, 1], fun _ l => l.reverse⟩ [("A", "z"), ("B", "y"), ("A", "x")]
    "A" ⟨fun _ => [0, 1], fun _ _ => ["z", "x"]⟩ 0 1 [("A", "z"), ("B", "y"), ("A", "x")]
  refine ⟨⟨by decide, h1.1 (by decide)⟩, ⟨by decide, ?_⟩, ?_⟩
  · exact h1.2.1 (by decide) (by decide) (by decide)
      (fun j => by
        show (["z", "x"] : List String).Perm ["x", "z"]
        exact List.Perm.swap "x" "z" [])
      (by decide)
  · exact (negative_differs_spec [("X", "u"), ("Y", "v")]
      ⟨fun _ => 0, fun _ => [], fun _ l => l⟩ [] "A" ⟨fun _ => [], fun _ _ => []⟩ 0 0 []).2.2
      (by decide)

/-- A corpus-loop step whose warning counter is additive lets the whole fold
shift an initial warning count out. -/
theorem foldl_warn_shift {σ : Type}
    (step : (List Dialogue × ℕ) → σ → (List Dialogue × ℕ))
    (hstep : ∀ a w x, step (a, w) x = ((step (a, 0) x).1, w + (step (a, 0) x).2)) :
    ∀ (lines : List σ) (a : List Dialogue) (w : ℕ),
      lines.foldl step (a, w)
        = ((lines.foldl step (a, 0)).1, w + (lines.foldl step (a, 0)).2) := by
  intro lines
  induction lines with
  | nil => intro a w; rfl
  | cons x xs ih =>
      intro a w
      simp only [List.foldl_cons]
      rw [hstep a w x, hstep a 0 x, Nat.zero_add,
        ih (step (a, 0) x).1 (w + (step (a, 0) x).2), ih (step (a, 0) x).1 (step (a, 0) x).2]
      refine Prod.ext rfl ?_
      simp only
      omega

/-- The dataset-constructor step counts warnings additively. -/
theorem htLoadStep_shift (maxU : ℕ) :
    ∀ (a : List Dialogue) (w : ℕ) (line : RawLine),
      htLoadStep maxU (a, w) line
        = ((htLoadStep maxU (a, 0) line).1, w + (htLoadStep maxU (a, 0) line).2) := by
  intro a w line
  cases line with
  | none => rfl
  | some turns =>
      simp only [htLoadStep]
      split <;> rfl

/-- The LCD loader step counts warnings additively. -/
theorem lcdLoadStep_shift :
    ∀ (a : List Dialogue) (w : ℕ) (line : RawLine),
      lcdLoadStep (a, w) line
        = ((lcdLoadStep (a, 0) line).1, w + (lcdLoadStep (a, 0) line).2) := by
  intro a w line
  cases line with
  | none => rfl
  | some turns =>
      simp only [lcdLoadStep]
      split <;> rfl

/-- Skipping a malformed line: the dataset-constructor load keeps the same
dialogues and counts one more warning. -/
theorem htLoad_skip (maxU : ℕ) (pre post : List RawLine) :
    htLoad (pre ++ none :: post) maxU
      = ((htLoad (pre ++ post) maxU).1, (htLoad (pre ++ post) maxU).2 + 1) := by
  rw [htLoad, htLoad, List.foldl_append, List.foldl_append, List.foldl_cons]
  have hmid : htLoadStep maxU (pre.foldl (htLoadStep maxU) ([], 0)) none
      = ((pre.foldl (htLoadStep maxU) ([], 0)).1,
         (pre.foldl (htLoadStep maxU) ([], 0)).2 + 1) := rfl
  rw [hmid]
  have hshift := foldl_warn_shift (htLoadStep maxU) (htLoadStep_shift maxU) post
  rw [hshift _ ((pre.foldl (htLoadStep maxU) ([], 0)).2 + 1)]
  have h2 : pre.foldl (htLoadStep maxU) ([], 0)
      = ((pre.foldl (htLoadStep maxU) ([], 0)).1, (pre.foldl (htLoadStep maxU) ([], 0)).2) :=
    rfl
  conv_rhs => rw [h2]
  rw [hshift _ ((pre.foldl (htLoadStep maxU) ([], 0)).2)]
  refine Prod.ext rfl ?_
  simp only
  omega

/-- Skipping a malformed line in load_dialogues_with_speakers. -/
theorem lcdLoad_skip (pre post : List RawLine) :
    load_dialogues_with_speakers (pre ++ none :: post)
      = ((load_dialogues_with_speakers (pre ++ post)).1,
         (load_dialogues_with_speakers (pre ++ post)).2 + 1) := by
  rw [load_dialogues_with_speakers, load_dialogues_with_speakers,
    List.foldl_append, List.foldl_append, List.foldl_cons]
  have hmid : lcdLoadStep (pre.foldl lcdLoadStep ([], 0)) none
      = ((pre.foldl lcdLoadStep ([], 0)).1, (pre.foldl lcdLoadStep ([], 0)).2 + 1) := rfl
  rw [hmid]
  have hshift := foldl_warn_shift lcdLoadStep lcdLoadStep_shift post
  rw [hshift _ ((pre.foldl lcdLoadStep ([], 0)).2 + 1)]
  have h2 : pre.foldl lcdLoadStep ([], 0)
      = ((pre.foldl lcdLoadStep ([], 0)).1, (pre.foldl lcdLoadStep ([], 0)).2) := rfl
  conv_rhs => rw [h2]
  rw [hshift _ ((pre.foldl lcdLoadStep ([], 0)).2)]
  refine Prod.ext rfl ?_
  simp only
  omega

/-- C9: the dataset constructor signals a construction error exactly when the
corpus yields no valid dialogue, and in both loaders a line that fails to parse
is skipped with one extra warning, leaving the loaded dialogues untouched
rather than aborting the load. -/
theorem dataset_init_spec :
    (∀ (lines : List RawLine) (maxU : ℕ) (oracles : ℕ → HTOracle),
        (htLoad lines maxU).1 = []
          ↔ ∃ msg, DialogueCoherenceDataset_init lines maxU oracles = Except.error msg)
      ∧ (∀ (maxU : ℕ) (pre post : List RawLine),
          htLoad (pre ++ none :: post) maxU
            = ((htLoad (pre ++ post) maxU).1, (htLoad (pre ++ post) maxU).2 + 1))
      ∧ (∀ pre post : List RawLine,
          load_dialogues_with_speakers (pre ++ none :: post)
            = ((load_dialogues_with_speakers (pre ++ post)).1,
               (load_dialogues_with_speakers (pre ++ post)).2 + 1)) := by
  refine ⟨?_, htLoad_skip, lcdLoad_skip⟩
  intro lines maxU oracles
  by_cases h : (htLoad lines maxU).1 = []
  · simp only [h, true_iff]
    refine ⟨"No valid dialogues found in the provided folder.", ?_⟩
    simp only [DialogueCoherenceDataset_init, h]
    rfl
  · simp only [h, false_iff]
    rintro ⟨msg, hmsg⟩
    simp only [DialogueCoherenceDataset_init] at hmsg
    rw [if_neg h] at hmsg
    exact absurd hmsg (by simp)
